import Mathlib

/-!
Shallow embedding of `pdf2docx/font/Fonts.py`.

The module extracts font family names and line-height ratios from fonts
embedded in a PDF.  External collaborators are modelled at their interface
boundary:

* the host document layer (`PyMuPDF`) supplies, per font cross reference, a
  tuple `(basename, ext, buffer)`; we model the sequence of references as a
  list of `FontRef` records;
* the binary font decoder (`fontTools.ttLib.TTFont`) turns a buffer into a
  font object exposing the `name`, `head`, `hhea`, `OS/2` and `cmap` tables;
  we model the *result* of that decoding directly (`Option TTFontObj`, with
  `none` standing for the `TTLibError` that the source catches), since the
  binary parser itself is an external library;
* Python `float` arithmetic is modelled by exact rational arithmetic (`ℚ`);
  the decimal literals `1.2` and `1.3` of the source denote the exact
  rationals here;
* a Python function that can raise an uncaught exception is modelled with an
  `Option` result, `none` standing for the raised exception.

Fallible steps and the exact branch structure of the source are preserved;
nothing is simplified away.
-/

/-- Result value of the module: `Font = namedtuple('Font', ['name','line_height'])`. -/
structure Font where
  name : String
  line_height : ℚ
deriving DecidableEq

/-- One record of the font's `name` table, as exposed by the decoder:
`record.nameID` and the raw bytes `record.string` (each byte a value < 256). -/
structure NameRecord where
  nameID : ℕ
  string : List ℕ
deriving DecidableEq

/-- View of the `head` table (`tt_font["head"].unitsPerEm`). -/
structure HeadTable where
  unitsPerEm : ℕ
deriving DecidableEq

/-- View of the `hhea` table (`ascent`, `descent`, `lineGap`). -/
structure HheaTable where
  ascent : ℤ
  descent : ℤ
  lineGap : ℤ
deriving DecidableEq

/-- View of the `OS/2` table bit-range fields used by `is_cjk_font`. -/
structure OS2Table where
  ulCodePageRange1 : ℕ
  ulUnicodeRange1 : ℕ
  ulUnicodeRange2 : ℕ
  ulUnicodeRange3 : ℕ
deriving DecidableEq

/-- A decoded `TTFont` object, modelled at the granularity the source reads
it.  Each table is `none` when absent (`tt_font.has_key` false; reading it
raises `KeyError`).  `cmap` models `tt_font.getBestCmap()` as the list of
defined code points; `none` models absence of a usable Unicode cmap, in
which case the source's unguarded access raises (`KeyError` for a missing
`cmap` table, `TypeError` for `x in None`). -/
structure TTFontObj where
  nameTable : Option (List NameRecord)
  head : Option HeadTable
  hhea : Option HheaTable
  os2 : Option OS2Table
  cmap : Option (List ℕ)
deriving DecidableEq

/-- The static CJK configuration imported from `pdf2docx.common.constants`
(`CJK_CODEPAGE_BITS`, `CJK_UNICODE_RANGE_BITS`, `CJK_UNICODE_RANGES`).  The
claims quantify over the configured values, so the tables are parameters of
the embedding. -/
structure CJKConfig where
  codepageBits : List ℕ
  unicodeRangeBits : List ℕ
  unicodeRanges : List (ℕ × ℕ)
deriving DecidableEq

/-- One font reference supplied by the host document layer:
`xref` is the cross-reference id collected from `page.get_fonts()`, and
`basename`, `ext`, `decoded` model the result of
`fitz_doc.extract_font(xref)` followed by `TTFont(io.BytesIO(buffer))`
(`decoded = none` models the `TTLibError` branch the source catches, or a
non-embedded font whose buffer is never decoded). -/
structure FontRef where
  xref : ℕ
  basename : String
  ext : String
  decoded : Option TTFontObj
deriving DecidableEq

/-- Python `str.split(sep)` for a one-character separator: splits on every
occurrence, keeping empty pieces, and always returns at least one piece. -/
def pySplit (sep : Char) : List Char → List (List Char)
  | [] => [[]]
  | c :: cs =>
    match pySplit sep cs with
    | [] => [[]]
    | p :: ps => if c = sep then [] :: p :: ps else (c :: p) :: ps

/-- Python `str.upper()` restricted to per-character uppercasing (font names
are ASCII in every use of this module). -/
def pyUpper (s : List Char) : List Char := s.map Char.toUpper

/-- Python `str.replace(' ', '')`: drop every space character. -/
def pyRemoveSpaces (s : List Char) : List Char := s.filter (fun c => c ≠ ' ')

/-- Python string containment helper: `a` is a prefix of `b`. -/
def pyStartsWith : List Char → List Char → Bool
  | [], _ => true
  | _ :: _, [] => false
  | a :: as, b :: bs => a == b && pyStartsWith as bs

/-- Python `a in b` on strings: `a` occurs as a contiguous substring of `b`
(the empty string is a substring of everything). -/
def pyInStr (a : List Char) : List Char → Bool
  | [] => pyStartsWith a []
  | c :: bs => pyStartsWith a (c :: bs) || pyInStr a bs

namespace Fonts

/-- Source `Fonts._normalized_font_name`:
`name.split('+')[-1].split('-')[0]` — the piece after the *last* `'+'`,
then the piece before the *first* `'-'`. -/
def _normalized_font_name (name : String) : String :=
  String.mk ((pySplit '-' ((pySplit '+' name.data).getLastD [])).headD [])

/-- Matching test of the loop body of `Fonts.get`: the normalized query is a
substring of the normalized font name or vice versa. -/
def matchName (normalized_font_name : List Char) (font : Font) : Bool :=
  let name := pyUpper (pyRemoveSpaces font.name.data)
  pyInStr normalized_font_name name || pyInStr name normalized_font_name

/-- Source `Fonts.get`: linear scan for the first matching font, else a new
`Font` with the original name and default line height `1.2`. -/
def get (self : List Font) (font_name : String) : Font :=
  let normalized := pyUpper (pyRemoveSpaces font_name.data)
  match self.find? (matchName normalized) with
  | some font => font
  | none => ⟨font_name, 1.2⟩

/-- Source `Fonts._is_valid`: the decoded object exists and has the
`name`, `hhea`, `head` and `OS/2` tables. -/
def _is_valid (tt_font : Option TTFontObj) : Bool :=
  match tt_font with
  | none => false
  | some tt => tt.nameTable.isSome && tt.hhea.isSome && tt.head.isSome && tt.os2.isSome

/-- Source `Fonts.get_defult_fonts` (name as in the source): one `Font` per
entry of the external `DICT_FONT_LINE_HEIGHT` table. -/
def get_defult_fonts (dict_font_line_height : List (String × ℚ)) : List Font :=
  dict_font_line_height.map (fun p => ⟨p.1, p.2⟩)

end Fonts

/-- Python `bytes.decode('latin-1')`: each byte maps to the code point of
the same value; this never fails. -/
def latin1Decode (raw : List ℕ) : List Char := raw.map Char.ofNat

/-- Big-endian UTF-16 code units of a byte string; `none` on odd length
(Python raises `UnicodeDecodeError`). -/
def utf16beUnits : List ℕ → Option (List ℕ)
  | [] => some []
  | [_] => none
  | b0 :: b1 :: rest => (utf16beUnits rest).map (fun us => (256 * b0 + b1) :: us)

/-- Surrogate-pair combination of UTF-16 code units; `none` on an unpaired
surrogate (Python raises `UnicodeDecodeError`). -/
def utf16beCombine : List ℕ → Option (List ℕ)
  | [] => some []
  | u :: us =>
    if u < 0xD800 || 0xDFFF < u then (utf16beCombine us).map (u :: ·)
    else if u ≤ 0xDBFF then
      match us with
      | [] => none
      | u2 :: rest =>
        if 0xDC00 ≤ u2 && u2 ≤ 0xDFFF then
          (utf16beCombine rest).map
            (fun cps => (0x10000 + (u - 0xD800) * 0x400 + (u2 - 0xDC00)) :: cps)
        else none
    else none

/-- Python `bytes.decode('utf-16-be')`. -/
def utf16beDecode (raw : List ℕ) : Option (List Char) :=
  (utf16beUnits raw).bind (fun us => (utf16beCombine us).map (fun cps => cps.map Char.ofNat))

/-- Decoding of one name record, exactly as in `get_font_family_name`:
UTF-16-BE when the raw bytes contain a zero byte, Latin-1 otherwise.
`none` models an uncaught `UnicodeDecodeError`. -/
def pyDecodeBytes (raw : List ℕ) : Option String :=
  if raw.contains 0 then (utf16beDecode raw).map String.mk
  else some (String.mk (latin1Decode raw))

namespace Fonts

/-- Loop of `Fonts.get_font_family_name` over the name records, carrying the
`name` (id 4) and `family` (id 1) accumulators; Python string truthiness is
nonemptiness.  Both the `break` and the fall-through return
`_normalized_font_name(family)`. -/
def family_loop : List NameRecord → String → String → Option String
  | [], _, family => some (_normalized_font_name family)
  | record :: rest, name, family =>
    match pyDecodeBytes record.string with
    | none => none
    | some name_str =>
      let hitName := record.nameID == 4 && name == ""
      let name' := if hitName then name_str else name
      let family' :=
        if !hitName && (record.nameID == 1 && family == "") then name_str else family
      if name' ≠ "" ∧ family' ≠ "" then some (_normalized_font_name family')
      else family_loop rest name' family'

/-- Source `Fonts.get_font_family_name`: scan `tt_font['name'].names`;
a missing `name` table raises (`none`). -/
def get_font_family_name (tt_font : TTFontObj) : Option String :=
  match tt_font.nameTable with
  | none => none
  | some records => family_loop records "" ""

end Fonts

/-- Codepage check of `is_cjk_font`:
`os2.ulCodePageRange1 & (1 << bit)` is nonzero for some configured bit. -/
def checkCodepage (cfg : CJKConfig) (os2 : OS2Table) : Bool :=
  cfg.codepageBits.any (fun bit => os2.ulCodePageRange1 &&& (1 <<< bit) != 0)

/-- Unicode-range check of `is_cjk_font`: the configured bit indexes select
`ulUnicodeRange1/2/3` in bands of 32; a bit outside 0..95 never fires. -/
def checkUnicodeRanges (cfg : CJKConfig) (os2 : OS2Table) : Bool :=
  cfg.unicodeRangeBits.any (fun bit =>
    if bit < 32 then os2.ulUnicodeRange1 &&& (1 <<< bit) != 0
    else if bit < 64 then os2.ulUnicodeRange2 &&& (1 <<< (bit - 32)) != 0
    else if bit < 96 then os2.ulUnicodeRange3 &&& (1 <<< (bit - 64)) != 0
    else false)

/-- Cmap check of `is_cjk_font`: some code point of a configured inclusive
range `[lo, hi]` is defined in the cmap. -/
def checkCmap (cfg : CJKConfig) (cmap : List ℕ) : Bool :=
  cfg.unicodeRanges.any (fun r =>
    (List.range' r.1 (r.2 + 1 - r.1)).any (fun x => cmap.contains x))

namespace Fonts

/-- Source `Fonts.is_cjk_font`: the three checks in source order.  The cmap
is only read after the first two checks fail; reading an absent cmap raises
(`none`). -/
def is_cjk_font (cfg : CJKConfig) (tt_font : TTFontObj) : Option Bool :=
  match tt_font.os2 with
  | none => none
  | some os2 =>
    if checkCodepage cfg os2 then some true
    else if checkUnicodeRanges cfg os2 then some true
    else
      match tt_font.cmap with
      | none => none
      | some cmap => some (checkCmap cfg cmap)

/-- Source `Fonts.get_line_height_factor`.  Reads `hhea` and `head`, then
classifies CJK, then returns `distance / units_per_em`; a zero
`units_per_em` raises `ZeroDivisionError` (`none`), exactly as the
unguarded Python division does. -/
def get_line_height_factor (cfg : CJKConfig) (tt_font : TTFontObj) : Option ℚ :=
  match tt_font.hhea, tt_font.head with
  | some hhea, some head =>
    match is_cjk_font cfg tt_font with
    | none => none
    | some cjk =>
      let hhea_total_height : ℤ := hhea.ascent + |hhea.descent|
      let hhea_btb_distance : ℤ := hhea_total_height + hhea.lineGap
      let distance : ℚ :=
        if cjk then 1.3 * (hhea_total_height : ℚ) else 1.0 * (hhea_btb_distance : ℚ)
      if head.unitsPerEm = 0 then none
      else some (distance / (head.unitsPerEm : ℚ))
  | _, _ => none

end Fonts

/-- Spec-side reading of `normalize` step 1 as the claim words it: "split on
the first `'+'` and keep the suffix" (the whole string when there is no
`'+'`). -/
def afterFirstSep (sep : Char) (l : List Char) : List Char :=
  if sep ∈ l then (l.dropWhile (fun c => c ≠ sep)).tail else l

/-- Spec-side formalisation of the claim's description of `normalize`:
suffix after the *first* `'+'`, then the piece before the first `'-'`. -/
def specNormalizeFirstSplit (name : String) : String :=
  String.mk ((afterFirstSep '+' name.data).takeWhile (fun c => c ≠ '-'))

/-- Suffix after the *last* occurrence of `sep` (the whole string when
`sep` does not occur); this is what `split(sep)[-1]` computes. -/
def afterLastSep (sep : Char) : List Char → List Char
  | [] => []
  | c :: cs => if sep ∈ cs then afterLastSep sep cs else if c = sep then cs else c :: cs

/-- One insertion into the model of the CPython `set` of xref ids: ignore a
duplicate, otherwise insert keeping the list sorted. -/
def pySetInsert (acc : List ℕ) (x : ℕ) : List ℕ :=
  if x ∈ acc then acc else List.orderedInsert (· ≤ ·) x acc

/-- Model of `xrefs = set(); ... xrefs.add(f[0])` followed by iterating the
set: the distinct ids, enumerated here in ascending order.  CPython
iterates a set in hash-table slot order (`hash(id) % table_size`, table
size initially 8 and growing on resize), which is neither the
first-observed order nor, once ids reach the table size, ascending order
(`{1, 8}` iterates as `[8, 1]`).  The *order* of this model therefore
matches CPython only on inputs with at most 4 distinct ids all below 8
(no resize, one slot per id) — which holds for every concrete input
evaluated below; everything proved about general inputs uses only the
model's membership and duplicate-freedom, which hold for any set
implementation and are order-independent. -/
def pySetList (l : List ℕ) : List ℕ := l.foldl pySetInsert []

namespace Fonts

/-- Body of the `for xref in xrefs` loop of `Fonts.extract` for one xref:
embedded and valid fonts yield a decoded `Font` (any uncaught exception in
`get_font_family_name` or `get_line_height_factor` propagates as `none`);
everything else falls back to `default_fonts.get` of the normalized
basename. -/
def processXref (cfg : CJKConfig) (default_fonts : List Font) (r : FontRef) : Option Font :=
  let name := _normalized_font_name r.basename
  if r.ext ≠ "n/a" then
    if _is_valid r.decoded then
      match r.decoded with
      | some tt =>
        (get_font_family_name tt).bind (fun fam =>
          (get_line_height_factor cfg tt).map (fun lh => ⟨fam, lh⟩))
      | none => some (get default_fonts name)
    else some (get default_fonts name)
  else some (get default_fonts name)

/-- Iteration of `Fonts.extract` over the deduplicated xref ids; each id is
resolved to its host-supplied data (`fitz_doc.extract_font(xref)`, modelled
as lookup of the first `FontRef` carrying that id). -/
def extractLoop (cfg : CJKConfig) (default_fonts : List Font) (refs : List FontRef) :
    List ℕ → Option (List Font)
  | [] => some []
  | x :: xs =>
    match refs.find? (fun r => r.xref == x) with
    | none => none
    | some r =>
      match processXref cfg default_fonts r with
      | none => none
      | some font => (extractLoop cfg default_fonts refs xs).map (fun fonts => font :: fonts)

/-- Source `Fonts.extract`: collect the distinct xref ids into a set, build
the default font table, and process each distinct xref once.  `none` models
an uncaught exception aborting the whole run. -/
def extract (cfg : CJKConfig) (dict_font_line_height : List (String × ℚ))
    (refs : List FontRef) : Option (List Font) :=
  extractLoop cfg (get_defult_fonts dict_font_line_height) refs
    (pySetList (refs.map FontRef.xref))

end Fonts

/-- Spec-side description of the family value `get_font_family_name` keeps:
the decoded string of the first `name_id = 1` record whose decoded value is
nonempty, and `""` when there is none. -/
def firstFamilyValue : List NameRecord → String
  | [] => ""
  | r :: rs =>
    if r.nameID = 1 then
      match pyDecodeBytes r.string with
      | some s => if s ≠ "" then s else firstFamilyValue rs
      | none => firstFamilyValue rs
    else firstFamilyValue rs

/-! ### Concrete fixtures used by several claims -/

/-- Empty CJK configuration: no codepage bits, no range bits, no ranges. -/
def cfgEmpty : CJKConfig := ⟨[], [], []⟩

/-- Configuration with the single codepage bit 0 configured as CJK. -/
def cfgCodepage0 : CJKConfig := ⟨[0], [], []⟩

/-- Configuration with one CJK code-point range (CJK Unified Ideographs). -/
def cfgHan : CJKConfig := ⟨[], [], [(0x4E00, 0x9FFF)]⟩

/-- Typical vertical metrics: ascent 880, descent -120, no line gap. -/
def hhea880 : HheaTable := ⟨880, -120, 0⟩

/-- A fully valid decoded font: name table with one family record
("Arial" in Latin-1 bytes), 1000 units per em, metrics `hhea880`,
all OS/2 bits clear, an empty cmap. -/
def ttArial : TTFontObj :=
  ⟨some [⟨1, [65, 114, 105, 97, 108]⟩], some ⟨1000⟩, some hhea880, some ⟨0, 0, 0, 0⟩, some []⟩

/-- A second valid decoded font ("Times", 2048 units per em,
ascent 1638 / descent -410). -/
def ttTimes : TTFontObj :=
  ⟨some [⟨1, [84, 105, 109, 101, 115]⟩], some ⟨2048⟩, some ⟨1638, -410, 0⟩,
    some ⟨0, 0, 0, 0⟩, some []⟩

/-- Valid tables except `unitsPerEm = 0`: passes `_is_valid` but makes the
line-height division degenerate. -/
def ttZeroUpm : TTFontObj := ⟨some [], some ⟨0⟩, some hhea880, some ⟨0, 0, 0, 0⟩, some []⟩

/-- Valid tables but no usable Unicode cmap. -/
def ttNoCmap : TTFontObj := ⟨some [⟨1, [65]⟩], some ⟨1000⟩, some hhea880, some ⟨0, 0, 0, 0⟩, none⟩

/-- Valid tables with OS/2 codepage bit 0 set (CJK under `cfgCodepage0`). -/
def ttCJK : TTFontObj := ⟨some [], some ⟨1000⟩, some hhea880, some ⟨1, 0, 0, 0⟩, some []⟩

/-! ### Lemmas about `pySplit` and name normalization -/

theorem pySplit_ne_nil (sep : Char) (l : List Char) : pySplit sep l ≠ [] := by
  induction l with
  | nil => simp [pySplit]
  | cons c cs ih =>
    simp only [pySplit]
    cases h : pySplit sep cs with
    | nil => simp
    | cons p ps => by_cases hc : c = sep <;> simp [hc]

theorem pySplit_of_not_mem {sep : Char} {l : List Char} (h : sep ∉ l) :
    pySplit sep l = [l] := by
  induction l with
  | nil => simp [pySplit]
  | cons c cs ih =>
    simp only [List.mem_cons, not_or] at h
    simp only [pySplit, ih h.2]
    simp [Ne.symm h.1, h.1]

theorem headD_pySplit (sep : Char) (l : List Char) :
    (pySplit sep l).headD [] = l.takeWhile (fun c => c ≠ sep) := by
  induction l with
  | nil => simp [pySplit]
  | cons c cs ih =>
    simp only [pySplit]
    cases h : pySplit sep cs with
    | nil => exact absurd h (pySplit_ne_nil sep cs)
    | cons p ps =>
      rw [h] at ih
      simp only [List.headD_cons] at ih
      simp only [ne_eq, decide_not] at ih ⊢
      by_cases hc : c = sep <;> simp [hc, List.takeWhile_cons, ← ih]

theorem pySplit_length_ge_two {sep : Char} {l : List Char} (h : sep ∈ l) :
    2 ≤ (pySplit sep l).length := by
  induction l with
  | nil => simp at h
  | cons c cs ih =>
    simp only [pySplit]
    cases hs : pySplit sep cs with
    | nil => exact absurd hs (pySplit_ne_nil sep cs)
    | cons p ps =>
      by_cases hc : c = sep
      · simp only [if_pos hc, List.length_cons]
        omega
      · have h2 : sep ∈ cs := by
          rcases List.mem_cons.mp h with h1 | h2
          · exact absurd h1.symm hc
          · exact h2
        have hrec := ih h2
        rw [hs] at hrec
        simp only [List.length_cons] at hrec
        simp only [if_neg hc, List.length_cons]
        omega

theorem afterLastSep_of_not_mem {sep : Char} {l : List Char} (h : sep ∉ l) :
    afterLastSep sep l = l := by
  induction l with
  | nil => simp [afterLastSep]
  | cons c cs ih =>
    simp only [List.mem_cons, not_or] at h
    simp [afterLastSep, h.2, Ne.symm h.1, h.1]

theorem not_mem_afterLastSep (sep : Char) (l : List Char) : sep ∉ afterLastSep sep l := by
  induction l with
  | nil => simp [afterLastSep]
  | cons c cs ih =>
    by_cases hm : sep ∈ cs
    · simpa [afterLastSep, hm] using ih
    · by_cases hc : c = sep
      · simp [afterLastSep, hm, hc]
      · simp [afterLastSep, hm, hc, Ne.symm hc]

theorem getLastD_pySplit (sep : Char) (l : List Char) :
    (pySplit sep l).getLastD [] = afterLastSep sep l := by
  induction l with
  | nil => simp [pySplit, afterLastSep]
  | cons c cs ih =>
    simp only [pySplit, afterLastSep]
    cases hs : pySplit sep cs with
    | nil => exact absurd hs (pySplit_ne_nil sep cs)
    | cons p ps =>
      rw [hs] at ih
      by_cases hc : c = sep
      · -- a separator here: the last piece is the last piece of the rest
        by_cases hm : sep ∈ cs
        · simpa [hc, hm] using ih
        · rw [pySplit_of_not_mem hm] at hs
          cases hs
          simp [hc, hm]
      · by_cases hm : sep ∈ cs
        · -- separator occurs later: the rest splits in at least two pieces
          have hlen := pySplit_length_ge_two hm
          rw [hs] at hlen
          cases ps with
          | nil => simp at hlen
          | cons q qs => simpa [hc, hm] using ih
        · rw [pySplit_of_not_mem hm] at hs
          cases hs
          simp [hc, hm]

theorem takeWhile_eq_self_of_all {p : Char → Bool} {l : List Char}
    (h : ∀ c ∈ l, p c) : l.takeWhile p = l := by
  induction l with
  | nil => simp
  | cons c cs ih =>
    rw [List.takeWhile_cons, if_pos (h c (List.mem_cons_self c cs))]
    rw [ih (fun x hx => h x (List.mem_cons_of_mem c hx))]

theorem normalized_font_name_eq (name : String) :
    Fonts._normalized_font_name name =
      String.mk ((afterLastSep '+' name.data).takeWhile (fun c => c ≠ '-')) := by
  rw [Fonts._normalized_font_name, getLastD_pySplit, headD_pySplit]

/-! ### Claims C4 and C9: name normalization -/

/-- C4, counterexample.  The claim states that `normalize` keeps the suffix
of the *first* `'+'` split and that `normalize("+OnlyPrefix-") = ""`.  Both
parts fail on the code: the source takes `split('+')[-1]` (the last piece),
so `normalize("a+b+c") = "c"` while the first-split reading gives `"b+c"`;
and `normalize("+OnlyPrefix-") = "OnlyPrefix"`, not `""`. -/
theorem C4_normalize_counterexample :
    Fonts._normalized_font_name "+OnlyPrefix-" = "OnlyPrefix" ∧
    ("OnlyPrefix" : String) ≠ "" ∧
    Fonts._normalized_font_name "a+b+c" = "c" ∧
    specNormalizeFirstSplit "a+b+c" = "b+c" ∧
    ("c" : String) ≠ "b+c" := by
  refine ⟨by decide, by decide, by decide, by decide, by decide⟩

/-- C4, amended.  `normalize` splits on the *last* `'+'` and keeps the
suffix, then splits on the first `'-'` and keeps the prefix; consequently
`normalize("BCDGEE+Calibri-Bold") = "Calibri"`, `normalize("Arial") =
"Arial"`, and `normalize("+OnlyPrefix-") = "OnlyPrefix"`. -/
theorem C4_normalize_amended (name : String) :
    Fonts._normalized_font_name name =
      String.mk ((afterLastSep '+' name.data).takeWhile (fun c => c ≠ '-')) ∧
    Fonts._normalized_font_name "BCDGEE+Calibri-Bold" = "Calibri" ∧
    Fonts._normalized_font_name "Arial" = "Arial" ∧
    Fonts._normalized_font_name "+OnlyPrefix-" = "OnlyPrefix" :=
  ⟨normalized_font_name_eq name, by decide, by decide, by decide⟩

/-- C9: `normalize` is idempotent: `normalize(normalize(s)) = normalize(s)`
for every string `s`. -/
theorem C9_normalize_idempotent (s : String) :
    Fonts._normalized_font_name (Fonts._normalized_font_name s) =
      Fonts._normalized_font_name s := by
  rw [normalized_font_name_eq s, normalized_font_name_eq]
  have hdata :
      (String.mk ((afterLastSep '+' s.data).takeWhile (fun c => c ≠ '-'))).data =
        (afterLastSep '+' s.data).takeWhile (fun c => c ≠ '-') := rfl
  rw [hdata]
  have hplus : '+' ∉ (afterLastSep '+' s.data).takeWhile (fun c => c ≠ '-') := by
    intro h
    exact not_mem_afterLastSep '+' s.data ((List.takeWhile_sublist _).subset h)
  rw [afterLastSep_of_not_mem hplus]
  rw [takeWhile_eq_self_of_all (fun c hc => List.mem_takeWhile_imp hc)]

/-! ### Claims C7 and C10: `Fonts.get` -/

theorem pyInStr_nil_left (b : List Char) : pyInStr [] b = true := by
  cases b <;> simp [pyInStr, pyStartsWith]

theorem matchName_nil (f : Font) : Fonts.matchName [] f = true := by
  simp [Fonts.matchName, pyInStr_nil_left]

/-- C7: `get` normalizes the query (upper-cased, spaces removed), linearly
scans the collection, and returns the first font whose normalized name
contains the normalized query or is contained in it; with no match it
returns a synthesized `Font` with the original, unnormalized query as name
and line height `1.2` — in particular `get` on the empty collection and
query `"Anything"` gives `Font "Anything" 1.2`. -/
theorem C7_get_first_match_or_default :
    (∀ (pre post : List Font) (f : Font) (q : String),
        (∀ g ∈ pre, Fonts.matchName (pyUpper (pyRemoveSpaces q.data)) g = false) →
        Fonts.matchName (pyUpper (pyRemoveSpaces q.data)) f = true →
        Fonts.get (pre ++ f :: post) q = f) ∧
    (∀ (self : List Font) (q : String),
        (∀ g ∈ self, Fonts.matchName (pyUpper (pyRemoveSpaces q.data)) g = false) →
        Fonts.get self q = ⟨q, 1.2⟩) ∧
    Fonts.get [] "Anything" = ⟨"Anything", 1.2⟩ := by
  refine ⟨?_, ?_, rfl⟩
  · intro pre post f q hpre hf
    have hnone : pre.find? (Fonts.matchName (pyUpper (pyRemoveSpaces q.data))) = none :=
      List.find?_eq_none.mpr (fun g hg => by simp [hpre g hg])
    simp only [Fonts.get, List.find?_append, hnone, List.find?_cons_of_pos _ hf,
      Option.none_or]
  · intro self q hall
    have hnone : self.find? (Fonts.matchName (pyUpper (pyRemoveSpaces q.data))) = none :=
      List.find?_eq_none.mpr (fun g hg => by simp [hall g hg])
    simp only [Fonts.get, hnone]

/-- C7, witness: a concrete collection where the second font matches a
case- and space-insensitive query, evaluated through the theorem. -/
theorem C7_get_first_match_or_default_witness :
    Fonts.get [Font.mk "Arial" 1, Font.mk "Calibri" (59/50)] "calibri bold" =
      Font.mk "Calibri" (59/50) :=
  C7_get_first_match_or_default.1 [Font.mk "Arial" 1] [] (Font.mk "Calibri" (59/50))
    "calibri bold" (by decide) (by decide)

/-- C10: on a non-empty collection, a query that is empty or all spaces
normalizes to the empty string, which is a substring of every name, so
`get` returns the first font instead of the synthesized `1.2` fallback. -/
theorem C10_get_empty_query (f : Font) (fs : List Font) (q : String)
    (h : pyRemoveSpaces q.data = []) :
    Fonts.get (f :: fs) q = f := by
  have hmatch : Fonts.matchName (pyUpper (pyRemoveSpaces q.data)) f = true := by
    rw [h]
    exact matchName_nil f
  simp only [Fonts.get, List.find?_cons_of_pos _ hmatch]

/-- C10, witness: the all-spaces query on a singleton collection returns
that font, not the fallback. -/
theorem C10_get_empty_query_witness :
    Fonts.get [Font.mk "Arial" 1] "  " = Font.mk "Arial" 1 :=
  C10_get_empty_query (Font.mk "Arial" 1) [] "  " (by decide)

/-! ### Claims C5 and C3: line-height computation -/

/-- C5: for a decoded font whose CJK classification succeeds and whose
`units_per_em` is nonzero, the factor is `(total + line_gap) / units_per_em`
for non-CJK and `1.3 * total / units_per_em` for CJK, with
`total = ascent + |descent|` from `hhea`; for ascent 880, descent -120,
line gap 0, units-per-em 1000 this gives `1` (non-CJK) and `1.3` (CJK). -/
theorem C5_line_height_formula :
    (∀ (cfg : CJKConfig) (tt : TTFontObj) (hhea : HheaTable) (head : HeadTable) (cjk : Bool),
        tt.hhea = some hhea → tt.head = some head →
        Fonts.is_cjk_font cfg tt = some cjk → head.unitsPerEm ≠ 0 →
        Fonts.get_line_height_factor cfg tt =
          some (if cjk then
              (1.3 : ℚ) * ((hhea.ascent + |hhea.descent| : ℤ) : ℚ) / (head.unitsPerEm : ℚ)
            else
              ((hhea.ascent + |hhea.descent| + hhea.lineGap : ℤ) : ℚ) / (head.unitsPerEm : ℚ))) ∧
    Fonts.get_line_height_factor cfgEmpty ttArial = some 1 ∧
    Fonts.get_line_height_factor cfgCodepage0 ttCJK = some (1.3 : ℚ) := by
  refine ⟨?_, ?_, ?_⟩
  · intro cfg tt hhea head cjk h1 h2 h3 h4
    simp only [Fonts.get_line_height_factor, h1, h2, h3, if_neg h4]
    cases cjk <;> norm_num
  · norm_num [Fonts.get_line_height_factor, Fonts.is_cjk_font, checkCodepage,
      checkUnicodeRanges, checkCmap, cfgEmpty, ttArial, hhea880]
  · norm_num [Fonts.get_line_height_factor, Fonts.is_cjk_font, checkCodepage,
      checkUnicodeRanges, checkCmap, cfgCodepage0, ttCJK, hhea880]

/-- C5, witness: the general formula applied to the concrete font with
ascent 880, descent -120, line gap 0 and 1000 units per em gives `1`. -/
theorem C5_line_height_formula_witness :
    Fonts.get_line_height_factor cfgEmpty ttArial = some 1 := by
  have h := C5_line_height_formula.1 cfgEmpty ttArial hhea880 ⟨1000⟩ false rfl rfl
    (by decide) (by decide)
  rw [h]
  norm_num [hhea880]

/-- C3: the claim says `units_per_em = 0` is treated as an invalid-tables
failure and resolved through the default-collection fallback.  The code
does no such check: `_is_valid` accepts the font (it only tests table
presence), `get_line_height_factor` reaches the division and raises
`ZeroDivisionError` (modelled `none`), and the uncaught exception aborts
the whole `extract` run instead of falling back. -/
theorem C3_zero_units_per_em_raises :
    Fonts._is_valid (some ttZeroUpm) = true ∧
    Fonts.get_line_height_factor cfgEmpty ttZeroUpm = none ∧
    Fonts.extract cfgEmpty [] [⟨1, "Foo", "ttf", some ttZeroUpm⟩] = none := by
  refine ⟨rfl, rfl, rfl⟩

/-! ### Claim C6: CJK classification -/

/-- C6, counterexample.  The claim says that when the cmap is absent and
the first two checks fail, `is_cjk_font` returns false.  It does not: the
source reads `tt_font.getBestCmap()` and tests membership unconditionally
once the first two checks fail, so an absent cmap raises (`KeyError` or
`TypeError`), modelled `none` — not `some false`. -/
theorem C6_is_cjk_counterexample :
    Fonts.is_cjk_font cfgHan ttNoCmap = none ∧ (none : Option Bool) ≠ some false :=
  ⟨rfl, by simp⟩

/-- C6, amended: `is_cjk_font` returns true iff one of the three signals
fires — a configured codepage bit set in `ulCodePageRange1`, a configured
Unicode-range bit set in the band-selected `ulUnicodeRange1/2/3` word, or
(checked only when the first two fail) a configured CJK code point present
in the cmap; when the first two checks fail and the cmap is absent the
classification raises instead of returning false. -/
theorem C6_is_cjk_amended (cfg : CJKConfig) (tt : TTFontObj) (os2 : OS2Table)
    (hos2 : tt.os2 = some os2) :
    ((checkCodepage cfg os2 = true ∨ checkUnicodeRanges cfg os2 = true) →
        Fonts.is_cjk_font cfg tt = some true) ∧
    (∀ cmap, tt.cmap = some cmap →
        Fonts.is_cjk_font cfg tt =
          some (checkCodepage cfg os2 || checkUnicodeRanges cfg os2 || checkCmap cfg cmap)) ∧
    (tt.cmap = none → checkCodepage cfg os2 = false → checkUnicodeRanges cfg os2 = false →
        Fonts.is_cjk_font cfg tt = none) ∧
    (checkCodepage cfg os2 = true ↔
        ∃ b ∈ cfg.codepageBits, os2.ulCodePageRange1 &&& (1 <<< b) ≠ 0) ∧
    (checkUnicodeRanges cfg os2 = true ↔
        ∃ b ∈ cfg.unicodeRangeBits,
          (b < 32 ∧ os2.ulUnicodeRange1 &&& (1 <<< b) ≠ 0) ∨
          (32 ≤ b ∧ b < 64 ∧ os2.ulUnicodeRange2 &&& (1 <<< (b - 32)) ≠ 0) ∨
          (64 ≤ b ∧ b < 96 ∧ os2.ulUnicodeRange3 &&& (1 <<< (b - 64)) ≠ 0)) ∧
    (∀ cmap : List ℕ, checkCmap cfg cmap = true ↔
        ∃ r ∈ cfg.unicodeRanges, ∃ x, r.1 ≤ x ∧ x ≤ r.2 ∧ x ∈ cmap) := by
  refine ⟨?_, ?_, ?_, ?_, ?_, ?_⟩
  · intro h
    rcases h with h | h
    · simp [Fonts.is_cjk_font, hos2, h]
    · by_cases hcp : checkCodepage cfg os2 <;> simp [Fonts.is_cjk_font, hos2, hcp, h]
  · intro cmap hc
    by_cases h1 : checkCodepage cfg os2 <;> by_cases h2 : checkUnicodeRanges cfg os2 <;>
      simp [Fonts.is_cjk_font, hos2, hc, h1, h2]
  · intro hc h1 h2
    simp [Fonts.is_cjk_font, hos2, h1, h2, hc]
  · simp [checkCodepage, List.any_eq_true]
  · simp only [checkUnicodeRanges, List.any_eq_true]
    constructor
    · rintro ⟨b, hb, hp⟩
      refine ⟨b, hb, ?_⟩
      by_cases h1 : b < 32
      · exact Or.inl ⟨h1, by simpa [h1] using hp⟩
      · by_cases h2 : b < 64
        · exact Or.inr (Or.inl ⟨by omega, h2, by simpa [h1, h2] using hp⟩)
        · by_cases h3 : b < 96
          · exact Or.inr (Or.inr ⟨by omega, h3, by simpa [h1, h2, h3] using hp⟩)
          · simp [h1, h2, h3] at hp
    · rintro ⟨b, hb, (⟨h1, hne⟩ | ⟨h2a, h2b, hne⟩ | ⟨h3a, h3b, hne⟩)⟩
      · exact ⟨b, hb, by simp [h1, hne]⟩
      · refine ⟨b, hb, ?_⟩
        have h1' : ¬ b < 32 := by omega
        simp [h1', h2b, hne]
      · refine ⟨b, hb, ?_⟩
        have h1' : ¬ b < 32 := by omega
        have h2' : ¬ b < 64 := by omega
        simp [h1', h2', h3b, hne]
  · intro cmap
    simp only [checkCmap, List.any_eq_true]
    constructor
    · rintro ⟨r, hr, x, hxr, hxc⟩
      rw [List.mem_range'_1] at hxr
      exact ⟨r, hr, x, hxr.1, by omega, by simpa [List.contains] using hxc⟩
    · rintro ⟨r, hr, x, h1, h2, hm⟩
      refine ⟨r, hr, x, ?_, by simpa [List.contains] using hm⟩
      rw [List.mem_range'_1]
      omega

/-- C6, witness: a font with OS/2 codepage bit 0 set classifies CJK
through the first signal, evaluated via the amended theorem. -/
theorem C6_is_cjk_amended_witness :
    Fonts.is_cjk_font cfgCodepage0 ttCJK = some true :=
  (C6_is_cjk_amended cfgCodepage0 ttCJK ⟨1, 0, 0, 0⟩ rfl).1 (Or.inl (by decide))

/-! ### Claim C8: family name from the naming table -/

theorem family_loop_of_family_ne (records : List NameRecord) :
    ∀ (name family : String), family ≠ "" →
    (∀ r ∈ records, (pyDecodeBytes r.string).isSome) →
    Fonts.family_loop records name family = some (Fonts._normalized_font_name family) := by
  induction records with
  | nil => intro name family hf hd; rfl
  | cons r rest ih =>
    intro name family hf hd
    obtain ⟨s, hs⟩ := Option.isSome_iff_exists.mp (hd r (List.mem_cons_self r rest))
    have hfb : (family == "") = false := beq_eq_false_iff_ne.mpr hf
    have hdrest : ∀ x ∈ rest, (pyDecodeBytes x.string).isSome :=
      fun x hx => hd x (List.mem_cons_of_mem r hx)
    simp only [Fonts.family_loop, hs, hfb, Bool.and_false, Bool.false_and, Bool.false_eq_true,
      if_false]
    split
    · split
      · rfl
      · exact ih _ family hf hdrest
    · split
      · rfl
      · exact ih _ family hf hdrest

theorem family_loop_firstFam (records : List NameRecord) :
    ∀ (name : String),
    (∀ r ∈ records, (pyDecodeBytes r.string).isSome) →
    Fonts.family_loop records name "" =
      some (Fonts._normalized_font_name (firstFamilyValue records)) := by
  induction records with
  | nil => intro name hd; rfl
  | cons r rest ih =>
    intro name hd
    obtain ⟨s, hs⟩ := Option.isSome_iff_exists.mp (hd r (List.mem_cons_self r rest))
    have hdrest : ∀ x ∈ rest, (pyDecodeBytes x.string).isSome :=
      fun x hx => hd x (List.mem_cons_of_mem r hx)
    by_cases h4 : (r.nameID == 4 && name == "") = true
    · have h4' := h4
      rw [Bool.and_eq_true] at h4'
      have h4id : r.nameID = 4 := beq_iff_eq.mp h4'.1
      simp only [Fonts.family_loop, hs, h4, if_true, Bool.not_true, Bool.false_and,
        Bool.false_eq_true, if_false]
      rw [if_neg (by simp)]
      rw [ih s hdrest]
      have hskip : firstFamilyValue (r :: rest) = firstFamilyValue rest := by
        simp [firstFamilyValue, h4id]
      rw [hskip]
    · have h4f : (r.nameID == 4 && name == "") = false := by
        simpa using h4
      by_cases h1 : (r.nameID == 1) = true
      · have h1id : r.nameID = 1 := beq_iff_eq.mp h1
        by_cases hse : s = ""
        · subst hse
          simp only [Fonts.family_loop, hs, h4f, Bool.false_eq_true, if_false,
            Bool.not_false, Bool.true_and, beq_self_eq_true, Bool.and_true, h1, if_true]
          rw [if_neg (by simp)]
          rw [ih name hdrest]
          have hskip : firstFamilyValue (r :: rest) = firstFamilyValue rest := by
            simp [firstFamilyValue, h1id, hs]
          rw [hskip]
        · have hff : firstFamilyValue (r :: rest) = s := by
            simp [firstFamilyValue, h1id, hs, hse]
          simp only [Fonts.family_loop, hs, h4f, Bool.false_eq_true, if_false,
            Bool.not_false, Bool.true_and, beq_self_eq_true, Bool.and_true, h1, if_true]
          rw [hff]
          split
          · rfl
          · exact family_loop_of_family_ne rest _ s hse hdrest
      · have h1f : (r.nameID == 1) = false := by
          simpa using h1
        have h1id : r.nameID ≠ 1 := by
          simpa using h1f
        simp only [Fonts.family_loop, hs, h4f, Bool.false_eq_true, if_false,
          Bool.not_false, Bool.true_and, beq_self_eq_true, Bool.and_true, h1f]
        rw [if_neg (by simp)]
        rw [ih name hdrest]
        have hskip : firstFamilyValue (r :: rest) = firstFamilyValue rest := by
          simp [firstFamilyValue, h1id]
        rw [hskip]

theorem firstFamilyValue_eq_empty (records : List NameRecord) :
    (∀ r ∈ records, r.nameID ≠ 1) → firstFamilyValue records = "" := by
  induction records with
  | nil => intro h; rfl
  | cons r rest ih =>
    intro h
    simp only [firstFamilyValue, if_neg (h r (List.mem_cons_self r rest))]
    exact ih (fun x hx => h x (List.mem_cons_of_mem r hx))

/-- C8: each name record decodes as big-endian UTF-16 when its raw bytes
contain a zero byte and as Latin-1 otherwise; the scan stops once both the
id-4 and id-1 values are found; the result is `normalize` of the first
nonempty id-1 (family) value, and the empty string when no id-1 record
appears — even when an id-4 record was present. -/
theorem C8_family_name :
    (∀ raw : List ℕ, raw.contains 0 = true →
        pyDecodeBytes raw = (utf16beDecode raw).map String.mk) ∧
    (∀ raw : List ℕ, raw.contains 0 = false →
        pyDecodeBytes raw = some (String.mk (latin1Decode raw))) ∧
    (∀ (tt : TTFontObj) (records : List NameRecord), tt.nameTable = some records →
        (∀ r ∈ records, (pyDecodeBytes r.string).isSome) →
        Fonts.get_font_family_name tt =
          some (Fonts._normalized_font_name (firstFamilyValue records))) ∧
    (∀ (tt : TTFontObj) (records : List NameRecord), tt.nameTable = some records →
        (∀ r ∈ records, (pyDecodeBytes r.string).isSome) →
        (∀ r ∈ records, r.nameID ≠ 1) →
        Fonts.get_font_family_name tt = some "") ∧
    Fonts.family_loop [⟨4, [70, 117, 108, 108]⟩, ⟨1, [70, 97, 109]⟩, ⟨1, [0]⟩] "" "" =
      some "Fam" := by
  refine ⟨?_, ?_, ?_, ?_, ?_⟩
  · intro raw h
    rw [pyDecodeBytes, if_pos h]
  · intro raw h
    rw [pyDecodeBytes, if_neg (by rw [h]; exact Bool.false_ne_true)]
  · intro tt records hn hd
    simp only [Fonts.get_font_family_name, hn]
    exact family_loop_firstFam records "" hd
  · intro tt records hn hd h1
    simp only [Fonts.get_font_family_name, hn]
    rw [family_loop_firstFam records "" hd, firstFamilyValue_eq_empty records h1]
    rfl
  · decide

/-- C8, witness: the concrete name table of `ttArial` resolves to the
family name "Arial" through the theorem. -/
theorem C8_family_name_witness :
    Fonts.get_font_family_name ttArial = some "Arial" := by
  have h := C8_family_name.2.2.1 ttArial [⟨1, [65, 114, 105, 97, 108]⟩] rfl (by decide)
  rw [h]
  decide

/-! ### Claims C1 and C2: `Fonts.extract` -/

theorem mem_pySetInsert {acc : List ℕ} {a x : ℕ} :
    x ∈ pySetInsert acc a ↔ x = a ∨ x ∈ acc := by
  by_cases h : a ∈ acc
  · rw [pySetInsert, if_pos h]
    constructor
    · exact Or.inr
    · rintro (rfl | hx)
      · exact h
      · exact hx
  · rw [pySetInsert, if_neg h]
    exact List.mem_orderedInsert _

theorem nodup_pySetInsert {acc : List ℕ} (h : acc.Nodup) (a : ℕ) :
    (pySetInsert acc a).Nodup := by
  by_cases hm : a ∈ acc
  · rw [pySetInsert, if_pos hm]
    exact h
  · rw [pySetInsert, if_neg hm]
    exact (List.perm_orderedInsert (· ≤ ·) a acc).nodup_iff.mpr (List.nodup_cons.mpr ⟨hm, h⟩)

theorem mem_foldl_pySetInsert (l : List ℕ) :
    ∀ (acc : List ℕ) (x : ℕ), x ∈ l.foldl pySetInsert acc ↔ x ∈ acc ∨ x ∈ l := by
  induction l with
  | nil => intro acc x; simp
  | cons a as ih =>
    intro acc x
    rw [List.foldl_cons, ih, mem_pySetInsert, List.mem_cons]
    tauto

theorem nodup_foldl_pySetInsert (l : List ℕ) :
    ∀ acc : List ℕ, acc.Nodup → (l.foldl pySetInsert acc).Nodup := by
  induction l with
  | nil => intro acc h; exact h
  | cons a as ih =>
    intro acc h
    exact ih _ (nodup_pySetInsert h a)

theorem pySetList_mem (l : List ℕ) (x : ℕ) : x ∈ pySetList l ↔ x ∈ l := by
  rw [pySetList, mem_foldl_pySetInsert]
  simp

theorem pySetList_nodup (l : List ℕ) : (pySetList l).Nodup :=
  nodup_foldl_pySetInsert l [] List.nodup_nil

theorem extractLoop_length (cfg : CJKConfig) (d : List Font) (refs : List FontRef) :
    ∀ (xs : List ℕ) (fonts : List Font),
      Fonts.extractLoop cfg d refs xs = some fonts → fonts.length = xs.length := by
  intro xs
  induction xs with
  | nil =>
    intro fonts h
    simp only [Fonts.extractLoop, Option.some.injEq] at h
    subst h
    rfl
  | cons x xs ih =>
    intro fonts h
    simp only [Fonts.extractLoop] at h
    split at h
    · exact absurd h (by simp)
    · split at h
      · exact absurd h (by simp)
      · rename_i font hp
        cases he : Fonts.extractLoop cfg d refs xs with
        | none => rw [he] at h; simp at h
        | some rest =>
          rw [he] at h
          simp at h
          subst h
          simp [ih rest he]

theorem processXref_arial :
    Fonts.processXref cfgEmpty [] ⟨1, "ArialMT", "ttf", some ttArial⟩ =
      some (Font.mk "Arial" 1) := by
  have hfam : Fonts.get_font_family_name ttArial = some "Arial" := by decide
  have hlh : Fonts.get_line_height_factor cfgEmpty ttArial = some 1 := by
    norm_num [Fonts.get_line_height_factor, Fonts.is_cjk_font, checkCodepage,
      checkUnicodeRanges, checkCmap, cfgEmpty, ttArial, hhea880]
  have hval : Fonts._is_valid (some ttArial) = true := by decide
  simp [Fonts.processXref, hfam, hlh, hval]

theorem processXref_times :
    Fonts.processXref cfgEmpty [] ⟨3, "TimesNewRomanPSMT", "ttf", some ttTimes⟩ =
      some (Font.mk "Times" 1) := by
  have hfam : Fonts.get_font_family_name ttTimes = some "Times" := by decide
  have hlh : Fonts.get_line_height_factor cfgEmpty ttTimes = some 1 := by
    norm_num [Fonts.get_line_height_factor, Fonts.is_cjk_font, checkCodepage,
      checkUnicodeRanges, checkCmap, cfgEmpty, ttTimes]
  have hval : Fonts._is_valid (some ttTimes) = true := by decide
  simp [Fonts.processXref, hfam, hlh, hval]

/-- C2, counterexample.  The claim says `extract` appends the `Font`
records in the order the font references were first observed.  It iterates
a Python `set` of xref ids instead: for ids 5 then 3 (both below the
hash-table size 8, so each occupies the slot equal to its value and
CPython iterates them as `[3, 5]`) the output lists the font of xref 3
before the font of xref 5, the reverse of first-observed order. -/
theorem C2_extract_order_counterexample :
    Fonts.extract cfgEmpty [] [⟨5, "B", "n/a", none⟩, ⟨3, "A", "n/a", none⟩] =
      some [Font.mk "A" 1.2, Font.mk "B" 1.2] ∧
    some [Font.mk "A" 1.2, Font.mk "B" 1.2] ≠
      some [Font.mk "B" 1.2, Font.mk "A" 1.2] := by
  constructor
  · rfl
  · simp

/-- C2, amended: `extract` appends exactly one `Font` per distinct xref —
every completing run is a single pass over a duplicate-free enumeration of
the distinct xref ids.  That enumeration is the `set`'s iteration order,
which is implementation-defined (CPython: hash-table slot order) and not
the first-observed order; the concrete conjunct shows that for three
references A, B, C with xrefs 1, 2, 3 (below the hash-table size, where
CPython's slot order is ascending), B failing to decode, the output is
A, B(fallback), C. -/
theorem C2_extract_order_amended :
    (∀ (cfg : CJKConfig) (dft : List (String × ℚ)) (refs : List FontRef) (fonts : List Font),
        Fonts.extract cfg dft refs = some fonts →
        ∃ xs : List ℕ, xs.Nodup ∧ (∀ x, x ∈ xs ↔ x ∈ refs.map FontRef.xref) ∧
          Fonts.extractLoop cfg (Fonts.get_defult_fonts dft) refs xs = some fonts) ∧
    Fonts.extract cfgEmpty [] [⟨1, "ArialMT", "ttf", some ttArial⟩,
        ⟨2, "BCDGEE+Broken-Bold", "ttf", none⟩,
        ⟨3, "TimesNewRomanPSMT", "ttf", some ttTimes⟩] =
      some [Font.mk "Arial" 1, Font.mk "Broken" 1.2, Font.mk "Times" 1] := by
  constructor
  · intro cfg dft refs fonts h
    exact ⟨pySetList (refs.map FontRef.xref), pySetList_nodup _,
      fun x => pySetList_mem _ x, h⟩
  · have hd : Fonts.get_defult_fonts ([] : List (String × ℚ)) = [] := rfl
    have hB : Fonts.processXref cfgEmpty [] ⟨2, "BCDGEE+Broken-Bold", "ttf", none⟩ =
        some (Font.mk "Broken" 1.2) := rfl
    rw [Fonts.extract, hd]
    rw [show pySetList (List.map FontRef.xref [⟨1, "ArialMT", "ttf", some ttArial⟩,
        ⟨2, "BCDGEE+Broken-Bold", "ttf", none⟩,
        ⟨3, "TimesNewRomanPSMT", "ttf", some ttTimes⟩]) = [1, 2, 3] from by decide]
    simp [Fonts.extractLoop, List.find?, processXref_arial, processXref_times, hB]

/-- C2, witness: the enumeration property evaluated on the concrete
two-reference run (xrefs observed 5 then 3). -/
theorem C2_extract_order_amended_witness :
    ∃ xs : List ℕ, xs.Nodup ∧
      (∀ x, x ∈ xs ↔ x ∈ List.map FontRef.xref
        [(⟨5, "B", "n/a", none⟩ : FontRef), ⟨3, "A", "n/a", none⟩]) ∧
      Fonts.extractLoop cfgEmpty (Fonts.get_defult_fonts [])
        [⟨5, "B", "n/a", none⟩, ⟨3, "A", "n/a", none⟩] xs =
        some [Font.mk "A" 1.2, Font.mk "B" 1.2] :=
  C2_extract_order_amended.1 cfgEmpty [] _ _ rfl

/-- C1: the claim says `extract` completes on every input and yields one
`Font` per distinct xref.  The per-xref count holds whenever the run
completes (first two conjuncts), and decode failures and non-embedded
fonts do fall back cleanly (third conjunct, with a duplicated xref), but
the run is *not* total: a valid-tabled embedded font with no usable cmap
makes the CJK classification raise, aborting the whole extraction
(fourth conjunct; a zero `units_per_em` aborts it the same way, see C3). -/
theorem C1_extract_totality :
    (∀ (cfg : CJKConfig) (dft : List (String × ℚ)) (refs : List FontRef) (fonts : List Font),
        Fonts.extract cfg dft refs = some fonts →
        fonts.length = (pySetList (refs.map FontRef.xref)).length) ∧
    (∀ l : List ℕ, (pySetList l).Nodup ∧ ∀ x, x ∈ pySetList l ↔ x ∈ l) ∧
    Fonts.extract cfgEmpty [] [⟨1, "A+B", "ttf", none⟩, ⟨2, "Helv", "n/a", none⟩,
        ⟨1, "A+B", "ttf", none⟩] = some [Font.mk "B" 1.2, Font.mk "Helv" 1.2] ∧
    Fonts.extract cfgEmpty [] [⟨1, "Foo", "ttf", some ttNoCmap⟩] = none := by
  refine ⟨?_, ?_, rfl, rfl⟩
  · intro cfg dft refs fonts h
    exact extractLoop_length cfg (Fonts.get_defult_fonts dft) refs
      (pySetList (refs.map FontRef.xref)) fonts h
  · intro l
    exact ⟨pySetList_nodup l, fun x => pySetList_mem l x⟩

/-- C1, witness: the per-distinct-xref count evaluated on the concrete
three-reference input with a duplicated xref. -/
theorem C1_extract_totality_witness :
    ([Font.mk "B" 1.2, Font.mk "Helv" 1.2] : List Font).length =
      (pySetList (List.map FontRef.xref [⟨1, "A+B", "ttf", none⟩, ⟨2, "Helv", "n/a", none⟩,
        ⟨1, "A+B", "ttf", none⟩])).length :=
  C1_extract_totality.1 cfgEmpty [] _ _ rfl
